import Mathlib

/-!
Verification of the read-path query fan-out and merge engine of
`pkg/distributor/query.go` (Cortex distributor).

The definitions below are shallow embeddings of the Go functions:
`mergeSamples`, `sameSamples`, `GetIngestersForQuery`, and the merge
phases of `queryIngesters` and `queryIngesterStream`.  Go slices become
lists, Go maps become association lists in insertion order (a
deterministic model of the map; Go itself randomizes iteration order),
`int64` millisecond timestamps become `Int`, and `float64` sample values
become `Rat` (only equality on values is ever used by this code).
-/

namespace Distributor

/-- A sample: `ingester_client.Sample` with `TimestampMs` and `Value`. -/
structure Sample where
  timestampMs : Int
  value : Rat
  deriving DecidableEq

/-- `sameSamples` from query.go: length check, then element-wise equality. -/
def sameSamples (a b : List Sample) : Bool :=
  if a.length ≠ b.length then false
  else (a.zip b).all fun p => p.1 == p.2

/-- The two-pointer loop of `mergeSamples` from query.go, including the
trailing `append` of whichever side remains. -/
def mergeLoop : List Sample → List Sample → List Sample
  | [], b => b
  | a, [] => a
  | x :: xs, y :: ys =>
    if x.timestampMs < y.timestampMs then
      x :: mergeLoop xs (y :: ys)
    else if x.timestampMs > y.timestampMs then
      y :: mergeLoop (x :: xs) ys
    else
      x :: mergeLoop xs ys
  termination_by a b => a.length + b.length

/-- `mergeSamples` from query.go: fast path when the two slices are
element-wise identical, otherwise the two-pointer merge. -/
def mergeSamples (a b : List Sample) : List Sample :=
  if sameSamples a b then a
  else mergeLoop a b

/-- The timestamps of a sample sequence, in order. -/
def timestampsOf (l : List Sample) : List Int :=
  l.map (fun s => s.timestampMs)

/-- The single-replica invariant: strictly increasing in timestamp
(hence duplicate-free). -/
def SortedSamples (l : List Sample) : Prop :=
  l.Pairwise (fun s t => s.timestampMs < t.timestampMs)

instance (l : List Sample) : Decidable (SortedSamples l) := by
  unfold SortedSamples
  infer_instance

theorem sameSamples_zip_all {a b : List Sample} (h : a.length = b.length) :
    ((a.zip b).all fun p => p.1 == p.2) = true ↔ a = b := by
  induction a generalizing b with
  | nil =>
    cases b with
    | nil => simp
    | cons y ys => simp at h
  | cons x xs ih =>
    cases b with
    | nil => simp at h
    | cons y ys =>
      simp only [List.length_cons, Nat.add_right_cancel_iff] at h
      simp only [List.zip_cons_cons, List.all_cons, Bool.and_eq_true, beq_iff_eq,
        List.cons.injEq, ih h]

theorem sameSamples_iff (a b : List Sample) : sameSamples a b = true ↔ a = b := by
  unfold sameSamples
  split
  · rename_i h
    constructor
    · intro hf; exact absurd hf (by simp)
    · intro he; exact absurd (congrArg List.length he) h
  · rename_i h
    exact sameSamples_zip_all (not_ne_iff.mp h)

theorem mergeSamples_eq (a b : List Sample) :
    mergeSamples a b = if a = b then a else mergeLoop a b := by
  unfold mergeSamples
  by_cases h : a = b
  · simp [h, (sameSamples_iff b b).mpr rfl]
  · have : sameSamples a b = false := by
      cases hs : sameSamples a b
      · rfl
      · exact absurd ((sameSamples_iff a b).mp hs) h
    simp [this, h]

theorem mergeLoop_nil_left (b : List Sample) : mergeLoop [] b = b := by
  simp [mergeLoop]

theorem mergeLoop_nil_right (a : List Sample) : mergeLoop a [] = a := by
  cases a <;> simp [mergeLoop]

theorem mergeLoop_cons_cons (x y : Sample) (xs ys : List Sample) :
    mergeLoop (x :: xs) (y :: ys) =
      if x.timestampMs < y.timestampMs then
        x :: mergeLoop xs (y :: ys)
      else if x.timestampMs > y.timestampMs then
        y :: mergeLoop (x :: xs) ys
      else
        x :: mergeLoop xs ys := by
  rw [mergeLoop]

theorem timestampsOf_cons (s : Sample) (l : List Sample) :
    timestampsOf (s :: l) = s.timestampMs :: timestampsOf l := rfl

theorem mem_timestampsOf_mergeLoop (t : Int) :
    ∀ (a b : List Sample),
      t ∈ timestampsOf (mergeLoop a b) ↔ t ∈ timestampsOf a ∨ t ∈ timestampsOf b := by
  intro a
  induction a with
  | nil =>
    intro b
    simp [mergeLoop_nil_left, timestampsOf]
  | cons x xs iha =>
    intro b
    induction b with
    | nil => simp [mergeLoop_nil_right, timestampsOf]
    | cons y ys ihb =>
      rw [mergeLoop_cons_cons]
      rcases lt_trichotomy x.timestampMs y.timestampMs with hlt | heq | hgt
      · rw [if_pos hlt]
        simp only [timestampsOf_cons, List.mem_cons, iha]
        tauto
      · rw [if_neg (by omega), if_neg (by omega)]
        simp only [timestampsOf_cons, List.mem_cons, iha]
        rw [heq]
        tauto
      · rw [if_neg (by omega), if_pos hgt]
        simp only [timestampsOf_cons, List.mem_cons, ihb]
        tauto

theorem mem_of_mem_mergeLoop :
    ∀ (a b : List Sample) {s : Sample}, s ∈ mergeLoop a b → s ∈ a ∨ s ∈ b := by
  intro a
  induction a with
  | nil =>
    intro b s hs
    rw [mergeLoop_nil_left] at hs
    exact Or.inr hs
  | cons x xs iha =>
    intro b
    induction b with
    | nil =>
      intro s hs
      rw [mergeLoop_nil_right] at hs
      exact Or.inl hs
    | cons y ys ihb =>
      intro s hs
      rw [mergeLoop_cons_cons] at hs
      rcases lt_trichotomy x.timestampMs y.timestampMs with hlt | heq | hgt
      · rw [if_pos hlt] at hs
        rcases List.mem_cons.mp hs with rfl | hs2
        · exact Or.inl (List.mem_cons_self _ _)
        · rcases iha (y :: ys) hs2 with h1 | h2
          · exact Or.inl (List.mem_cons_of_mem x h1)
          · exact Or.inr h2
      · rw [if_neg (by omega), if_neg (by omega)] at hs
        rcases List.mem_cons.mp hs with rfl | hs2
        · exact Or.inl (List.mem_cons_self _ _)
        · rcases iha ys hs2 with h1 | h2
          · exact Or.inl (List.mem_cons_of_mem x h1)
          · exact Or.inr (List.mem_cons_of_mem y h2)
      · rw [if_neg (by omega), if_pos hgt] at hs
        rcases List.mem_cons.mp hs with rfl | hs2
        · exact Or.inr (List.mem_cons_self _ _)
        · rcases ihb hs2 with h1 | h2
          · exact Or.inl h1
          · exact Or.inr (List.mem_cons_of_mem y h2)

theorem sortedSamples_cons {x : Sample} {l : List Sample} :
    SortedSamples (x :: l) ↔
      (∀ s ∈ l, x.timestampMs < s.timestampMs) ∧ SortedSamples l :=
  List.pairwise_cons

theorem head_ts_le_of_mem_sorted {y : Sample} {ys : List Sample}
    (h : SortedSamples (y :: ys)) {s : Sample} (hs : s ∈ y :: ys) :
    y.timestampMs ≤ s.timestampMs := by
  rcases List.mem_cons.mp hs with rfl | h2
  · exact le_refl _
  · exact le_of_lt ((sortedSamples_cons.mp h).1 s h2)

theorem sortedSamples_mergeLoop :
    ∀ (a b : List Sample), SortedSamples a → SortedSamples b →
      SortedSamples (mergeLoop a b) := by
  intro a
  induction a with
  | nil =>
    intro b _ hb
    rwa [mergeLoop_nil_left]
  | cons x xs iha =>
    intro b
    induction b with
    | nil =>
      intro ha _
      rwa [mergeLoop_nil_right]
    | cons y ys ihb =>
      intro ha hb
      obtain ⟨hxall, hxs⟩ := sortedSamples_cons.mp ha
      obtain ⟨hyall, hys⟩ := sortedSamples_cons.mp hb
      rw [mergeLoop_cons_cons]
      rcases lt_trichotomy x.timestampMs y.timestampMs with hlt | heq | hgt
      · rw [if_pos hlt, sortedSamples_cons]
        refine ⟨?_, iha (y :: ys) hxs hb⟩
        intro s hs
        rcases mem_of_mem_mergeLoop xs (y :: ys) hs with h1 | h2
        · exact hxall s h1
        · exact lt_of_lt_of_le hlt (head_ts_le_of_mem_sorted hb h2)
      · rw [if_neg (by omega), if_neg (by omega), sortedSamples_cons]
        refine ⟨?_, iha ys hxs hys⟩
        intro s hs
        rcases mem_of_mem_mergeLoop xs ys hs with h1 | h2
        · exact hxall s h1
        · rw [heq]
          exact hyall s h2
      · rw [if_neg (by omega), if_pos hgt, sortedSamples_cons]
        refine ⟨?_, ihb ha hys⟩
        intro s hs
        rcases mem_of_mem_mergeLoop (x :: xs) ys hs with h1 | h2
        · exact lt_of_lt_of_le hgt (head_ts_le_of_mem_sorted ha h1)
        · exact hyall s h2

theorem mergeLoop_mem_origin :
    ∀ (a b : List Sample), SortedSamples a → SortedSamples b →
      ∀ s ∈ mergeLoop a b,
        s ∈ a ∨ (s ∈ b ∧ ∀ u ∈ a, u.timestampMs ≠ s.timestampMs) := by
  intro a
  induction a with
  | nil =>
    intro b _ _ s hs
    rw [mergeLoop_nil_left] at hs
    exact Or.inr ⟨hs, by simp⟩
  | cons x xs iha =>
    intro b
    induction b with
    | nil =>
      intro _ _ s hs
      rw [mergeLoop_nil_right] at hs
      exact Or.inl hs
    | cons y ys ihb =>
      intro ha hb s hs
      obtain ⟨hxall, hxs⟩ := sortedSamples_cons.mp ha
      obtain ⟨hyall, hys⟩ := sortedSamples_cons.mp hb
      rw [mergeLoop_cons_cons] at hs
      rcases lt_trichotomy x.timestampMs y.timestampMs with hlt | heq | hgt
      · rw [if_pos hlt] at hs
        rcases List.mem_cons.mp hs with rfl | hs2
        · exact Or.inl (List.mem_cons_self _ _)
        · rcases iha (y :: ys) hxs hb s hs2 with h1 | ⟨h2, hall⟩
          · exact Or.inl (List.mem_cons_of_mem x h1)
          · refine Or.inr ⟨h2, ?_⟩
            intro u hu
            rcases List.mem_cons.mp hu with rfl | hu2
            · have := head_ts_le_of_mem_sorted hb h2
              omega
            · exact hall u hu2
      · rw [if_neg (by omega), if_neg (by omega)] at hs
        rcases List.mem_cons.mp hs with rfl | hs2
        · exact Or.inl (List.mem_cons_self _ _)
        · rcases iha ys hxs hys s hs2 with h1 | ⟨h2, hall⟩
          · exact Or.inl (List.mem_cons_of_mem x h1)
          · refine Or.inr ⟨List.mem_cons_of_mem y h2, ?_⟩
            intro u hu
            rcases List.mem_cons.mp hu with rfl | hu2
            · have := hyall s h2
              omega
            · exact hall u hu2
      · rw [if_neg (by omega), if_pos hgt] at hs
        rcases List.mem_cons.mp hs with rfl | hs2
        · refine Or.inr ⟨(List.mem_cons_self _ _), ?_⟩
          intro u hu
          rcases List.mem_cons.mp hu with rfl | hu2
          · omega
          · have := hxall u hu2
            omega
        · rcases ihb ha hys s hs2 with h1 | ⟨h2, hall⟩
          · exact Or.inl h1
          · exact Or.inr ⟨List.mem_cons_of_mem y h2, hall⟩

theorem eq_of_mem_sorted_eq_ts :
    ∀ {l : List Sample}, SortedSamples l → ∀ {u v : Sample}, u ∈ l → v ∈ l →
      u.timestampMs = v.timestampMs → u = v := by
  intro l
  induction l with
  | nil =>
    intro _ u v hu
    cases hu
  | cons x xs ih =>
    intro hl u v hu hv h
    obtain ⟨hxall, hxs⟩ := sortedSamples_cons.mp hl
    rcases List.mem_cons.mp hu with rfl | hu2
    · rcases List.mem_cons.mp hv with rfl | hv2
      · rfl
      · have := hxall v hv2
        omega
    · rcases List.mem_cons.mp hv with rfl | hv2
      · have := hxall u hu2
        omega
      · exact ih hxs hu2 hv2 h

theorem mem_timestampsOf_mergeSamples (t : Int) (a b : List Sample) :
    t ∈ timestampsOf (mergeSamples a b) ↔
      t ∈ timestampsOf a ∨ t ∈ timestampsOf b := by
  rw [mergeSamples_eq]
  by_cases h : a = b
  · rw [if_pos h, h]
    tauto
  · rw [if_neg h]
    exact mem_timestampsOf_mergeLoop t a b

/-- Claim C1: for strictly increasing, duplicate-free inputs `a` and `b`, the
set of timestamps appearing in `mergeSamples a b` equals the union of the
timestamps of `a` and of `b`. -/
theorem mergeSamples_timestamp_completeness (a b : List Sample)
    (ha : SortedSamples a) (hb : SortedSamples b) :
    ∀ t : Int, t ∈ timestampsOf (mergeSamples a b) ↔
      t ∈ timestampsOf a ∨ t ∈ timestampsOf b :=
  fun t => mem_timestampsOf_mergeSamples t a b

/-- Witness for C1 on concrete overlapping inputs. -/
theorem mergeSamples_timestamp_completeness_witness :
    SortedSamples [⟨100, 1⟩, ⟨200, 2⟩] ∧ SortedSamples [⟨200, 2⟩, ⟨300, 3⟩] ∧
      (∀ t : Int,
        t ∈ timestampsOf (mergeSamples [⟨100, 1⟩, ⟨200, 2⟩] [⟨200, 2⟩, ⟨300, 3⟩]) ↔
          t ∈ timestampsOf [⟨100, 1⟩, ⟨200, 2⟩] ∨
            t ∈ timestampsOf [⟨200, 2⟩, ⟨300, 3⟩]) :=
  ⟨by decide, by decide,
    mergeSamples_timestamp_completeness _ _ (by decide) (by decide)⟩

/-- Claim C2: for strictly increasing, duplicate-free inputs, the output of
`mergeSamples a b` is strictly increasing in timestamp (hence duplicate-free). -/
theorem mergeSamples_strictly_increasing (a b : List Sample)
    (ha : SortedSamples a) (hb : SortedSamples b) :
    SortedSamples (mergeSamples a b) := by
  rw [mergeSamples_eq]
  split
  · exact ha
  · exact sortedSamples_mergeLoop a b ha hb

/-- Witness for C2 on concrete overlapping inputs. -/
theorem mergeSamples_strictly_increasing_witness :
    SortedSamples [⟨100, 1⟩, ⟨300, 3⟩] ∧ SortedSamples [⟨200, 2⟩] ∧
      SortedSamples (mergeSamples [⟨100, 1⟩, ⟨300, 3⟩] [⟨200, 2⟩]) :=
  ⟨by decide, by decide,
    mergeSamples_strictly_increasing _ _ (by decide) (by decide)⟩

/-- Claim C3: on a timestamp tie `mergeSamples` keeps exactly the sample from
`a` (the left operand) at that timestamp and discards `b`'s sample; in
particular `mergeSamples [(100,1)] [(100,2)] = [(100,1)]`. -/
theorem mergeSamples_tie_prefers_left (a b : List Sample)
    (ha : SortedSamples a) (hb : SortedSamples b)
    (sa sb : Sample) (hsa : sa ∈ a) (hsb : sb ∈ b)
    (hts : sa.timestampMs = sb.timestampMs) :
    sa ∈ mergeSamples a b ∧
      (∀ s ∈ mergeSamples a b, s.timestampMs = sa.timestampMs → s = sa) ∧
      (sb ∈ mergeSamples a b → sb = sa) ∧
      mergeSamples [⟨100, 1⟩] [⟨100, 2⟩] = [⟨100, 1⟩] := by
  have key : ∀ s ∈ mergeSamples a b, s.timestampMs = sa.timestampMs → s = sa := by
    intro s hs hst
    rw [mergeSamples_eq] at hs
    by_cases hab : a = b
    · rw [if_pos hab] at hs
      exact eq_of_mem_sorted_eq_ts ha hs hsa hst
    · rw [if_neg hab] at hs
      rcases mergeLoop_mem_origin a b ha hb s hs with h1 | ⟨_, hall⟩
      · exact eq_of_mem_sorted_eq_ts ha h1 hsa hst
      · exact absurd hst.symm (hall sa hsa)
  refine ⟨?_, key, fun hmem => key sb hmem hts.symm, by
    simp [mergeSamples_eq, mergeLoop_cons_cons, mergeLoop_nil_left, mergeLoop_nil_right]⟩
  have hmem : sa.timestampMs ∈ timestampsOf (mergeSamples a b) := by
    rw [mem_timestampsOf_mergeSamples]
    refine Or.inl ?_
    simp only [timestampsOf, List.mem_map]
    exact ⟨sa, hsa, rfl⟩
  simp only [timestampsOf, List.mem_map] at hmem
  obtain ⟨s, hs, hseq⟩ := hmem
  have := key s hs hseq
  rwa [this] at hs

/-- Witness for C3 on concrete tied inputs. -/
theorem mergeSamples_tie_prefers_left_witness :
    (⟨100, 1⟩ : Sample) ∈ mergeSamples [⟨100, 1⟩, ⟨200, 5⟩] [⟨100, 2⟩] ∧
      (∀ s ∈ mergeSamples [⟨100, 1⟩, ⟨200, 5⟩] [⟨100, 2⟩],
        s.timestampMs = (⟨100, 1⟩ : Sample).timestampMs → s = ⟨100, 1⟩) ∧
      ((⟨100, 2⟩ : Sample) ∈ mergeSamples [⟨100, 1⟩, ⟨200, 5⟩] [⟨100, 2⟩] →
        (⟨100, 2⟩ : Sample) = ⟨100, 1⟩) ∧
      mergeSamples [⟨100, 1⟩] [⟨100, 2⟩] = [⟨100, 1⟩] :=
  mergeSamples_tie_prefers_left [⟨100, 1⟩, ⟨200, 5⟩] [⟨100, 2⟩]
    (by decide) (by decide) ⟨100, 1⟩ ⟨100, 2⟩ (by decide) (by decide) (by decide)

/-- Claim C4: if `a` and `b` are element-wise identical then the fast-path
test `sameSamples` succeeds and `mergeSamples` returns `a` itself (the code
takes the `return a` branch, allocating nothing); in particular
`mergeSamples x x = x` for every `x`. -/
theorem mergeSamples_fast_path_identical (a b : List Sample) (h : a = b) :
    sameSamples a b = true ∧ mergeSamples a b = a :=
  ⟨(sameSamples_iff a b).mpr h, by rw [mergeSamples_eq, if_pos h]⟩

/-- Witness for C4 at a concrete sequence. -/
theorem mergeSamples_fast_path_identical_witness :
    sameSamples [⟨100, 1⟩, ⟨200, 2⟩] [⟨100, 1⟩, ⟨200, 2⟩] = true ∧
      mergeSamples [⟨100, 1⟩, ⟨200, 2⟩] [⟨100, 1⟩, ⟨200, 2⟩] = [⟨100, 1⟩, ⟨200, 2⟩] :=
  mergeSamples_fast_path_identical _ _ rfl

/-- Claim C10: the empty sequence is an identity element for `mergeSamples`
on both sides. -/
theorem mergeSamples_empty_identity :
    (∀ a : List Sample, mergeSamples a [] = a) ∧
      (∀ b : List Sample, mergeSamples [] b = b) := by
  constructor
  · intro a
    rw [mergeSamples_eq]
    split
    · rfl
    · exact mergeLoop_nil_right a
  · intro b
    rw [mergeSamples_eq]
    split
    · rename_i h
      exact h
    · exact mergeLoop_nil_left b

theorem mem_of_mem_mergeSamples {a b : List Sample} {s : Sample}
    (h : s ∈ mergeSamples a b) : s ∈ a ∨ s ∈ b := by
  rw [mergeSamples_eq] at h
  by_cases hab : a = b
  · rw [if_pos hab] at h
    exact Or.inl h
  · rw [if_neg hab] at h
    exact mem_of_mem_mergeLoop a b h

/-- Counterexample for C9: on a precondition-violating (unsorted) first
input, `mergeSamples` does not fail loudly; it silently returns a result
that is not sorted. -/
theorem mergeSamples_silent_on_bad_input :
    mergeSamples [⟨3, 0⟩, ⟨1, 0⟩] [⟨2, 0⟩] = [⟨2, 0⟩, ⟨3, 0⟩, ⟨1, 0⟩] ∧
      ¬ SortedSamples (mergeSamples [⟨3, 0⟩, ⟨1, 0⟩] [⟨2, 0⟩]) := by
  have h : mergeSamples [⟨3, 0⟩, ⟨1, 0⟩] [⟨2, 0⟩] = [⟨2, 0⟩, ⟨3, 0⟩, ⟨1, 0⟩] := by
    simp [mergeSamples_eq, mergeLoop_cons_cons, mergeLoop_nil_right]
  refine ⟨h, ?_⟩
  rw [h]
  decide

/-- Claim C9 (amended): `mergeSamples` raises no internal error when both
inputs satisfy the precondition — it returns the sorted, timestamp-complete
merge; on any input, valid or not, it returns (never fails) and its output
draws only on input samples. -/
theorem mergeSamples_no_internal_error (a b : List Sample)
    (ha : SortedSamples a) (hb : SortedSamples b) :
    (SortedSamples (mergeSamples a b) ∧
      ∀ t : Int, t ∈ timestampsOf (mergeSamples a b) ↔
        t ∈ timestampsOf a ∨ t ∈ timestampsOf b) ∧
      ∀ a' b' : List Sample, ∀ s ∈ mergeSamples a' b', s ∈ a' ∨ s ∈ b' := by
  refine ⟨⟨?_, fun t => mem_timestampsOf_mergeSamples t a b⟩,
    fun a' b' s hs => mem_of_mem_mergeSamples hs⟩
  rw [mergeSamples_eq]
  split
  · exact ha
  · exact sortedSamples_mergeLoop a b ha hb

/-- Witness for the amended C9 at concrete sorted inputs. -/
theorem mergeSamples_no_internal_error_witness :
    SortedSamples [⟨1, 1⟩] ∧ SortedSamples [⟨2, 2⟩] ∧
      ((SortedSamples (mergeSamples [⟨1, 1⟩] [⟨2, 2⟩]) ∧
        ∀ t : Int, t ∈ timestampsOf (mergeSamples [⟨1, 1⟩] [⟨2, 2⟩]) ↔
          t ∈ timestampsOf [⟨1, 1⟩] ∨ t ∈ timestampsOf [⟨2, 2⟩]) ∧
        ∀ a' b' : List Sample, ∀ s ∈ mergeSamples a' b', s ∈ a' ∨ s ∈ b') :=
  ⟨by decide, by decide,
    mergeSamples_no_internal_error _ _ (by decide) (by decide)⟩

/-! ## Replica selection (`GetIngestersForQuery`) -/

/-- Label matcher types (`labels.MatchType`). -/
inductive MatchType
  | matchEqual
  | matchNotEqual
  | matchRegexp
  | matchNotRegexp
  deriving DecidableEq

/-- A label matcher (`labels.Matcher`). -/
structure LabelMatcher where
  matchType : MatchType
  name : String
  value : String
  deriving DecidableEq

/-- The Prometheus metric-name label. -/
def metricNameLabel : String := "__name__"

/-- Modelled from the spec: `extract.MetricNameMatcherFromMatchers`
(`pkg/util/extract`, outside src/) selects from the matcher set the matcher
on the metric-name label, per the spec's "the matcher set contains exactly
one equality matcher on the metric-name label" (its type is checked by the
caller). -/
def metricNameMatcherFromMatchers (matchers : List LabelMatcher) :
    Option LabelMatcher :=
  matchers.find? (fun m => m.name == metricNameLabel)

/-- `util.ShardingStrategy*` constants for `cfg.ShardingStrategy`. -/
inductive ShardingStrategy
  | byDefault
  | shuffle
  deriving DecidableEq

/-- A replication set, reduced to the ordered list of selected replica
endpoints (spec, section 3); its consistency parameters play no role in the
selection claims. -/
abbrev ReplicationSet := List String

/-- Errors surfaced by the selector. -/
inductive QueryError
  | missingTenant
  deriving DecidableEq

/-- The distributor configuration fields read by `GetIngestersForQuery`. -/
structure DistributorConfig where
  shardingStrategy : ShardingStrategy
  shuffleShardingLookbackPeriod : Int
  shardByAllLabels : Bool

/-- The distributor state read by `GetIngestersForQuery`.  Its external
collaborators — the per-tenant limit `IngestionTenantShardSize`, the ring
operations `ShuffleShardWithLookback(...).GetReplicationSetForOperation
(Read)`, `Get(key, Read, nil)` and `GetReplicationSetForOperation(Read)`,
and the hash `shardByMetricName` — live outside src/ and are modelled as
opaque deterministic function-valued fields, per the spec's collaborator
contracts (section 6). -/
structure Distributor where
  cfg : DistributorConfig
  ingestionTenantShardSize : String → Int
  shuffleShardReadSet : String → Int → Int → ReplicationSet
  ringGet : Nat → ReplicationSet
  ringReadSet : ReplicationSet
  shardByMetricName : String → String → Nat

/-- `GetIngestersForQuery` from query.go: resolve the tenant, then pick the
first applicable strategy — shuffle-shard subring, metric-name-targeted
`Get`, or the full read replication set.  The context is modelled as the
optional tenant identity it carries. -/
def GetIngestersForQuery (d : Distributor) (ctx : Option String)
    (matchers : List LabelMatcher) : Except QueryError ReplicationSet :=
  match ctx with
  | none => Except.error QueryError.missingTenant
  | some userID =>
    if d.cfg.shardingStrategy = ShardingStrategy.shuffle ∧
        d.ingestionTenantShardSize userID > 0 ∧
        d.cfg.shuffleShardingLookbackPeriod > 0 then
      Except.ok (d.shuffleShardReadSet userID
        (d.ingestionTenantShardSize userID) d.cfg.shuffleShardingLookbackPeriod)
    else if d.cfg.shardByAllLabels then
      Except.ok d.ringReadSet
    else
      match metricNameMatcherFromMatchers matchers with
      | some m =>
        if m.matchType = MatchType.matchEqual then
          Except.ok (d.ringGet (d.shardByMetricName userID m.value))
        else
          Except.ok d.ringReadSet
      | none => Except.ok d.ringReadSet

/-- Claim C5: `GetIngestersForQuery` evaluates its three strategies in a
fixed order and the first applicable one wins: shuffle-shard subring when the
strategy is shuffle with positive shard size and lookback; else the
metric-name-targeted replica set when shard-by-all-labels is disabled and the
matcher set has an equality matcher on the metric name; else the full read
replication set. -/
theorem getIngestersForQuery_strategy_order (d : Distributor) (userID : String)
    (matchers : List LabelMatcher) :
    (d.cfg.shardingStrategy = ShardingStrategy.shuffle →
      d.ingestionTenantShardSize userID > 0 →
      d.cfg.shuffleShardingLookbackPeriod > 0 →
      GetIngestersForQuery d (some userID) matchers =
        Except.ok (d.shuffleShardReadSet userID
          (d.ingestionTenantShardSize userID)
          d.cfg.shuffleShardingLookbackPeriod)) ∧
    (∀ m : LabelMatcher,
      ¬ (d.cfg.shardingStrategy = ShardingStrategy.shuffle ∧
          d.ingestionTenantShardSize userID > 0 ∧
          d.cfg.shuffleShardingLookbackPeriod > 0) →
      d.cfg.shardByAllLabels = false →
      metricNameMatcherFromMatchers matchers = some m →
      m.matchType = MatchType.matchEqual →
      GetIngestersForQuery d (some userID) matchers =
        Except.ok (d.ringGet (d.shardByMetricName userID m.value))) ∧
    (¬ (d.cfg.shardingStrategy = ShardingStrategy.shuffle ∧
        d.ingestionTenantShardSize userID > 0 ∧
        d.cfg.shuffleShardingLookbackPeriod > 0) →
      (d.cfg.shardByAllLabels = true ∨
        metricNameMatcherFromMatchers matchers = none ∨
        (∀ m, metricNameMatcherFromMatchers matchers = some m →
          m.matchType ≠ MatchType.matchEqual)) →
      GetIngestersForQuery d (some userID) matchers = Except.ok d.ringReadSet) := by
  refine ⟨?_, ?_, ?_⟩
  · intro h1 h2 h3
    simp only [GetIngestersForQuery]
    rw [if_pos ⟨h1, h2, h3⟩]
  · intro m hnot hsball hm hmt
    simp only [GetIngestersForQuery]
    rw [if_neg hnot]
    simp [hsball, hm, hmt]
  · intro hnot hcase
    simp only [GetIngestersForQuery]
    rw [if_neg hnot]
    rcases hcase with hsb | hnone | hall
    · simp [hsb]
    · cases hb : d.cfg.shardByAllLabels
      · simp [hb, hnone]
      · simp [hb]
    · cases hb : d.cfg.shardByAllLabels
      · cases hfm : metricNameMatcherFromMatchers matchers with
        | none => simp [hb, hfm]
        | some m => simp [hb, hfm, hall m hfm]
      · simp [hb]

/-- Witness for C5: a shuffle-sharding configuration takes the first
strategy. -/
theorem getIngestersForQuery_strategy_order_witness :
    GetIngestersForQuery
      ⟨⟨ShardingStrategy.shuffle, 60, false⟩,
        fun _ => 3,
        fun u _ _ => ["shard-of-" ++ u],
        fun _ => ["owner"],
        ["all"],
        fun _ _ => 7⟩
      (some "tenant") [] = Except.ok ["shard-of-tenant"] :=
  (getIngestersForQuery_strategy_order
    ⟨⟨ShardingStrategy.shuffle, 60, false⟩,
      fun _ => 3,
      fun u _ _ => ["shard-of-" ++ u],
      fun _ => ["owner"],
      ["all"],
      fun _ _ => 7⟩
    "tenant" []).1 rfl (by norm_num) (by norm_num)

/-! ## Association lists: the model of the Go maps used by the aggregators -/

section AList

variable {κ α β γ : Type} [DecidableEq κ]

/-- Association-list lookup: the model of Go map indexing. -/
def alistLookup (k : κ) : List (κ × α) → Option α
  | [] => none
  | e :: es => if e.1 = k then some e.2 else alistLookup k es

/-- Association-list store: the model of Go map assignment `m[k] = v`; a new
key is appended at the end (insertion order). -/
def alistUpsert (k : κ) (v : α) : List (κ × α) → List (κ × α)
  | [] => [(k, v)]
  | e :: es => if e.1 = k then (k, v) :: es else e :: alistUpsert k v es

/-- One Go-style map-merge step: read the entry at `key s` (if any), combine
it with `s` through `f`, and store the result back at `key s`. -/
def upsertBy (key : β → κ) (f : Option α → β → α) (acc : List (κ × α))
    (s : β) : List (κ × α) :=
  alistUpsert (key s) (f (alistLookup (key s) acc) s) acc

theorem alistLookup_upsert_self (k : κ) (v : α) (l : List (κ × α)) :
    alistLookup k (alistUpsert k v l) = some v := by
  induction l with
  | nil => simp [alistUpsert, alistLookup]
  | cons e es ih =>
    by_cases h : e.1 = k
    · simp [alistUpsert, h, alistLookup]
    · simp [alistUpsert, h, alistLookup, ih]

theorem alistLookup_upsert_ne (k k' : κ) (hne : ¬ k = k') (v : α)
    (l : List (κ × α)) :
    alistLookup k' (alistUpsert k v l) = alistLookup k' l := by
  induction l with
  | nil => simp [alistUpsert, alistLookup, hne]
  | cons e es ih =>
    by_cases h : e.1 = k
    · have h2 : ¬ e.1 = k' := by rw [h]; exact hne
      simp [alistUpsert, h, alistLookup, hne, h2]
    · simp [alistUpsert, h, alistLookup, ih]

theorem not_mem_keys_of_lookup_none {k : κ} :
    ∀ {l : List (κ × α)}, alistLookup k l = none → k ∉ l.map Prod.fst := by
  intro l
  induction l with
  | nil =>
    intro _
    simp
  | cons e es ih =>
    intro h
    simp only [alistLookup] at h
    by_cases hek : e.1 = k
    · rw [if_pos hek] at h
      cases h
    · rw [if_neg hek] at h
      simp only [List.map_cons, List.mem_cons]
      rintro (rfl | hmem)
      · exact hek rfl
      · exact ih h hmem

theorem alistUpsert_keys_of_lookup_none {k : κ} :
    ∀ {l : List (κ × α)}, alistLookup k l = none → ∀ v : α,
      (alistUpsert k v l).map Prod.fst = l.map Prod.fst ++ [k] := by
  intro l
  induction l with
  | nil =>
    intro _ v
    simp [alistUpsert]
  | cons e es ih =>
    intro h v
    simp only [alistLookup] at h
    by_cases hek : e.1 = k
    · rw [if_pos hek] at h
      cases h
    · rw [if_neg hek] at h
      simp [alistUpsert, hek, ih h]

theorem alistUpsert_keys_of_lookup_some {k : κ} {w : α} :
    ∀ {l : List (κ × α)}, alistLookup k l = some w → ∀ v : α,
      (alistUpsert k v l).map Prod.fst = l.map Prod.fst := by
  intro l
  induction l with
  | nil =>
    intro h
    cases h
  | cons e es ih =>
    intro h v
    simp only [alistLookup] at h
    by_cases hek : e.1 = k
    · simp [alistUpsert, hek]
    · rw [if_neg hek] at h
      simp [alistUpsert, hek, ih h]

theorem upsertBy_keys_nodup (key : β → κ) (f : Option α → β → α)
    {acc : List (κ × α)} (h : (acc.map Prod.fst).Nodup) (s : β) :
    ((upsertBy key f acc s).map Prod.fst).Nodup := by
  unfold upsertBy
  cases hl : alistLookup (key s) acc with
  | none =>
    rw [alistUpsert_keys_of_lookup_none hl]
    rw [List.nodup_append]
    refine ⟨h, List.nodup_singleton _, ?_⟩
    intro x hx hxk
    rw [List.mem_singleton.mp hxk] at hx
    exact not_mem_keys_of_lookup_none hl hx
  | some w =>
    rw [alistUpsert_keys_of_lookup_some hl]
    exact h

theorem foldl_upsertBy_keys_nodup (key : β → κ) (f : Option α → β → α)
    (L : List β) : ∀ {acc : List (κ × α)}, (acc.map Prod.fst).Nodup →
      ((L.foldl (upsertBy key f) acc).map Prod.fst).Nodup := by
  induction L with
  | nil =>
    intro acc h
    exact h
  | cons s L ih =>
    intro acc h
    exact ih (upsertBy_keys_nodup key f h s)

theorem mem_of_alistLookup {k : κ} {v : α} :
    ∀ {l : List (κ × α)}, alistLookup k l = some v → (k, v) ∈ l := by
  intro l
  induction l with
  | nil =>
    intro h
    cases h
  | cons e es ih =>
    intro h
    simp only [alistLookup] at h
    by_cases hek : e.1 = k
    · rw [if_pos hek] at h
      injection h with h2
      exact List.mem_cons.mpr (Or.inl (by rw [← hek, ← h2]))
    · rw [if_neg hek] at h
      exact List.mem_cons_of_mem e (ih h)

theorem alistLookup_of_mem_nodup :
    ∀ {l : List (κ × α)}, (l.map Prod.fst).Nodup → ∀ {k : κ} {v : α},
      (k, v) ∈ l → alistLookup k l = some v := by
  intro l
  induction l with
  | nil =>
    intro _ k v hm
    cases hm
  | cons e es ih =>
    intro h k v hm
    simp only [List.map_cons] at h
    obtain ⟨hhead, htail⟩ := List.nodup_cons.mp h
    rcases List.mem_cons.mp hm with rfl | hm2
    · simp [alistLookup]
    · have hkin : k ∈ es.map Prod.fst := by
        exact List.mem_map.mpr ⟨(k, v), hm2, rfl⟩
      have hek : ¬ e.1 = k := fun he => hhead (he ▸ hkin)
      simp only [alistLookup]
      rw [if_neg hek]
      exact ih htail hm2

theorem mem_map_snd_iff_lookup {l : List (κ × α)}
    (h : (l.map Prod.fst).Nodup) (v : α) :
    v ∈ l.map Prod.snd ↔ ∃ k, alistLookup k l = some v := by
  constructor
  · intro hv
    obtain ⟨⟨k, v'⟩, hm, hv'⟩ := List.mem_map.mp hv
    cases hv'
    exact ⟨k, alistLookup_of_mem_nodup h hm⟩
  · rintro ⟨k, hk⟩
    exact List.mem_map.mpr ⟨(k, v), mem_of_alistLookup hk, rfl⟩

theorem mem_alistUpsert {k : κ} {v : α} {p : κ × α} :
    ∀ {l : List (κ × α)}, p ∈ alistUpsert k v l → p = (k, v) ∨ p ∈ l := by
  intro l
  induction l with
  | nil =>
    intro h
    simp only [alistUpsert] at h
    exact Or.inl (List.mem_singleton.mp h)
  | cons e es ih =>
    intro h
    simp only [alistUpsert] at h
    by_cases hek : e.1 = k
    · rw [if_pos hek] at h
      rcases List.mem_cons.mp h with rfl | h2
      · exact Or.inl rfl
      · exact Or.inr (List.mem_cons_of_mem e h2)
    · rw [if_neg hek] at h
      rcases List.mem_cons.mp h with rfl | h2
      · exact Or.inr (List.mem_cons_self _ _)
      · rcases ih h2 with h3 | h3
        · exact Or.inl h3
        · exact Or.inr (List.mem_cons_of_mem e h3)

theorem foldl_upsertBy_entry_key (key : β → κ) (f : Option α → β → α)
    (g : α → κ)
    (hf : ∀ (o : Option α) (s : β), (∀ v, o = some v → g v = key s) →
      g (f o s) = key s)
    (L : List β) :
    ∀ {acc : List (κ × α)}, (∀ p ∈ acc, g p.2 = p.1) →
      ∀ p ∈ L.foldl (upsertBy key f) acc, g p.2 = p.1 := by
  induction L with
  | nil =>
    intro acc h
    exact h
  | cons s L ih =>
    intro acc h
    refine ih ?_
    intro p hp
    rcases mem_alistUpsert hp with rfl | hp2
    · exact hf _ s (fun v hv => h _ (mem_of_alistLookup hv))
    · exact h p hp2

theorem alistLookup_foldl_upsertBy (key : β → κ) (f : Option α → β → α)
    (k : κ) (L : List β) :
    ∀ (acc : List (κ × α)),
      alistLookup k (L.foldl (upsertBy key f) acc) =
        (L.filter (fun s => key s = k)).foldl (fun o s => some (f o s))
          (alistLookup k acc) := by
  induction L with
  | nil =>
    intro acc
    rfl
  | cons s L ih =>
    intro acc
    rw [List.foldl_cons, ih]
    by_cases hk : key s = k
    · rw [List.filter_cons_of_pos (by simp [hk]), List.foldl_cons]
      congr 1
      simp only [upsertBy]
      rw [hk, alistLookup_upsert_self]
    · rw [List.filter_cons_of_neg (by simp [hk])]
      congr 1
      simp only [upsertBy]
      exact alistLookup_upsert_ne (key s) k hk _ acc

theorem lookup_foldl_mem_elem_iff (key : β → κ) (f : Option α → β → α)
    (E : α → List γ) (Ein : β → List γ)
    (hf : ∀ (o : Option α) (s : β) (x : γ),
      x ∈ E (f o s) ↔ (∃ v, o = some v ∧ x ∈ E v) ∨ x ∈ Ein s)
    (k : κ) (L : List β) :
    ∀ (acc : List (κ × α)) (x : γ),
      (∃ v, alistLookup k (L.foldl (upsertBy key f) acc) = some v ∧ x ∈ E v) ↔
        (∃ v, alistLookup k acc = some v ∧ x ∈ E v) ∨
          ∃ s ∈ L, key s = k ∧ x ∈ Ein s := by
  induction L with
  | nil =>
    intro acc x
    simp
  | cons s L ih =>
    intro acc x
    rw [List.foldl_cons, ih]
    by_cases hk : key s = k
    · have hlook : alistLookup k (upsertBy key f acc s) =
          some (f (alistLookup k acc) s) := by
        simp only [upsertBy]
        rw [hk, alistLookup_upsert_self]
      rw [hlook]
      simp only [List.mem_cons]
      constructor
      · rintro (⟨v, hv, hx⟩ | ⟨s', hs', hks', hx⟩)
        · injection hv with hv
          rw [← hv] at hx
          rcases (hf _ s x).mp hx with ⟨w, hw, hxw⟩ | hxin
          · exact Or.inl ⟨w, hw, hxw⟩
          · exact Or.inr ⟨s, Or.inl rfl, hk, hxin⟩
        · exact Or.inr ⟨s', Or.inr hs', hks', hx⟩
      · rintro (⟨v, hv, hx⟩ | ⟨s', hmem, hks', hx⟩)
        · exact Or.inl ⟨_, rfl, (hf _ s x).mpr (Or.inl ⟨v, hv, hx⟩)⟩
        · rcases hmem with rfl | hs'
          · exact Or.inl ⟨_, rfl, (hf _ s' x).mpr (Or.inr hx)⟩
          · exact Or.inr ⟨s', hs', hks', hx⟩
    · have hlook : alistLookup k (upsertBy key f acc s) = alistLookup k acc := by
        simp only [upsertBy]
        exact alistLookup_upsert_ne (key s) k hk _ acc
      rw [hlook]
      simp only [List.mem_cons]
      constructor
      · rintro (h | ⟨s', hs', hks', hx⟩)
        · exact Or.inl h
        · exact Or.inr ⟨s', Or.inr hs', hks', hx⟩
      · rintro (h | ⟨s', hmem, hks', hx⟩)
        · exact Or.inl h
        · rcases hmem with rfl | hs'
          · exact absurd hks' hk
          · exact Or.inr ⟨s', hs', hks', hx⟩

theorem lookup_foldl_isSome_iff (key : β → κ) (f : Option α → β → α)
    (k : κ) (L : List β) :
    ∀ (acc : List (κ × α)),
      (∃ v, alistLookup k (L.foldl (upsertBy key f) acc) = some v) ↔
        (∃ v, alistLookup k acc = some v) ∨ ∃ s ∈ L, key s = k := by
  induction L with
  | nil =>
    intro acc
    simp
  | cons s L ih =>
    intro acc
    rw [List.foldl_cons, ih]
    by_cases hk : key s = k
    · have hlook : alistLookup k (upsertBy key f acc s) =
          some (f (alistLookup k acc) s) := by
        simp only [upsertBy]
        rw [hk, alistLookup_upsert_self]
      rw [hlook]
      simp only [List.mem_cons]
      constructor
      · intro _
        exact Or.inr ⟨s, Or.inl rfl, hk⟩
      · intro _
        exact Or.inl ⟨_, rfl⟩
    · have hlook : alistLookup k (upsertBy key f acc s) = alistLookup k acc := by
        simp only [upsertBy]
        exact alistLookup_upsert_ne (key s) k hk _ acc
      rw [hlook]
      simp only [List.mem_cons]
      constructor
      · rintro (h | ⟨s', hs', hks'⟩)
        · exact Or.inl h
        · exact Or.inr ⟨s', Or.inr hs', hks'⟩
      · rintro (h | ⟨s', hmem, hks'⟩)
        · exact Or.inl h
        · rcases hmem with rfl | hs'
          · exact absurd hks' hk
          · exact Or.inr ⟨s', hs', hks'⟩

end AList

/-! ## The two aggregation paths -/

/-- A metric: a label set (`model.Metric`). -/
abbrev Metric := List (String × String)

/-- A batch-protocol series (`model.SampleStream`): a metric and its
samples. -/
structure SampleStream where
  metric : Metric
  values : List Sample
  deriving DecidableEq

/-- A batch replica result (`model.Matrix`). -/
abbrev Matrix := List SampleStream

/-- Modelled from the spec: `util.MergeSampleSets` (`pkg/util`, outside
src/) merges two sorted, deduplicated sample sequences; per the spec the
batch aggregator folds series through SampleMerger, the algorithm of
`mergeSamples`. -/
def MergeSampleSets (a b : List Sample) : List Sample :=
  mergeSamples a b

/-- The combine function of the batch merge loop body (query.go lines 156 to
164): a missing fingerprint gets a fresh stream carrying the series' metric
and nil values, then the incoming values are folded in through
`util.MergeSampleSets`. -/
def batchCombine (o : Option SampleStream) (ss : SampleStream) : SampleStream :=
  match o with
  | none => ⟨ss.metric, MergeSampleSets [] ss.values⟩
  | some mss => ⟨mss.metric, MergeSampleSets mss.values ss.values⟩

/-- One iteration of the batch merge loop of `queryIngesters` over a single
series: index the map by the series' fingerprint and combine.  The
fingerprint hash `Metric.Fingerprint()` (Prometheus common model, outside
this repository) is an opaque function parameter `fp`. -/
def batchMergeStep (fp : Metric → Nat) (acc : List (Nat × SampleStream))
    (ss : SampleStream) : List (Nat × SampleStream) :=
  upsertBy (fun ss => fp ss.metric) batchCombine acc ss

/-- The merge phase of `queryIngesters` (query.go lines 152 to 172): fold
every per-replica matrix into the fingerprint-indexed map, then emit the
map's entries.  The Go map is modelled as an association list in insertion
order (Go itself randomizes iteration order). -/
def queryIngestersMerge (fp : Metric → Nat) (results : List Matrix) : Matrix :=
  (results.foldl (fun acc result => result.foldl (batchMergeStep fp) acc)
    []).map Prod.snd

/-- The label set of a streamed series (`[]client.LabelAdapter`). -/
abbrev Labels := List (String × String)

/-- A streamed chunk (`client.Chunk`): covered time range, encoding tag and
opaque payload bytes, never decoded by this code. -/
structure Chunk where
  startTimestampMs : Int
  endTimestampMs : Int
  encoding : Int
  data : List Nat
  deriving DecidableEq

/-- A streamed chunk-series (`client.TimeSeriesChunk`), reduced to the
fields the merge reads: labels and chunks. -/
structure TimeSeriesChunk where
  labels : Labels
  chunks : List Chunk
  deriving DecidableEq

/-- A streamed raw series (`client.TimeSeries`). -/
structure TimeSeries where
  labels : Labels
  samples : List Sample
  deriving DecidableEq

/-- A streaming replica result (`client.QueryStreamResponse`). -/
structure QueryStreamResponse where
  chunkseries : List TimeSeriesChunk
  timeseries : List TimeSeries
  deriving DecidableEq

/-- The combine function of the chunk-series map (query.go lines 223 to
227): take the existing entry (zero value when absent), overwrite its
labels, and append the incoming chunks verbatim. -/
def chunkCombine (o : Option TimeSeriesChunk) (series : TimeSeriesChunk) :
    TimeSeriesChunk :=
  ⟨series.labels,
    (match o with
      | none => []
      | some existing => existing.chunks) ++ series.chunks⟩

/-- One chunk-series merge step of `queryIngesterStream`: index by the
canonical string key of the label set and combine.  The canonical key
`client.LabelsToKeyString` (outside src/) is an opaque function parameter
`keyOf`. -/
def chunkMergeStep (keyOf : Labels → String)
    (acc : List (String × TimeSeriesChunk)) (series : TimeSeriesChunk) :
    List (String × TimeSeriesChunk) :=
  upsertBy (fun series => keyOf series.labels) chunkCombine acc series

/-- The combine function of the time-series map (query.go lines 232 to 240):
overwrite the labels and either adopt the incoming samples (when the entry
has none yet) or merge through `mergeSamples`. -/
def tsCombine (o : Option TimeSeries) (series : TimeSeries) : TimeSeries :=
  match o with
  | none => ⟨series.labels, series.samples⟩
  | some existing =>
    ⟨series.labels,
      if existing.samples = [] then series.samples
      else mergeSamples existing.samples series.samples⟩

/-- One raw-series merge step of `queryIngesterStream`. -/
def tsMergeStep (keyOf : Labels → String)
    (acc : List (String × TimeSeries)) (series : TimeSeries) :
    List (String × TimeSeries) :=
  upsertBy (fun series => keyOf series.labels) tsCombine acc series

/-- The merge phase of `queryIngesterStream` (query.go lines 215 to 255):
fold every replica response's chunk-series and time-series into the two
key-indexed maps, then emit each map's entries. -/
def queryIngesterStreamMerge (keyOf : Labels → String)
    (results : List QueryStreamResponse) : QueryStreamResponse :=
  let maps := results.foldl
    (fun (st : List (String × TimeSeriesChunk) × List (String × TimeSeries))
        response =>
      (response.chunkseries.foldl (chunkMergeStep keyOf) st.1,
        response.timeseries.foldl (tsMergeStep keyOf) st.2))
    ([], [])
  ⟨maps.1.map Prod.snd, maps.2.map Prod.snd⟩

/-- All chunk-series contributed by a result list, in processing order. -/
def allChunkSeries (results : List QueryStreamResponse) :
    List TimeSeriesChunk :=
  (results.map (fun r => r.chunkseries)).flatten

/-- All time-series contributed by a result list, in processing order. -/
def allTimeSeries (results : List QueryStreamResponse) : List TimeSeries :=
  (results.map (fun r => r.timeseries)).flatten

/-- All sample streams contributed by a batch result list, in processing
order. -/
def allSampleStreams (results : List Matrix) : List SampleStream :=
  results.flatten

theorem batchMergeStep_eq (fp : Metric → Nat) :
    batchMergeStep fp = upsertBy (fun ss => fp ss.metric) batchCombine := rfl

theorem chunkMergeStep_eq (keyOf : Labels → String) :
    chunkMergeStep keyOf =
      upsertBy (fun series => keyOf series.labels) chunkCombine := rfl

theorem tsMergeStep_eq (keyOf : Labels → String) :
    tsMergeStep keyOf =
      upsertBy (fun series => keyOf series.labels) tsCombine := rfl

theorem queryIngestersMerge_eq_flat (fp : Metric → Nat)
    (results : List Matrix) :
    queryIngestersMerge fp results =
      ((allSampleStreams results).foldl (batchMergeStep fp) []).map Prod.snd := by
  have key : ∀ (rs : List Matrix) (acc : List (Nat × SampleStream)),
      rs.foldl (fun acc result => result.foldl (batchMergeStep fp) acc) acc =
        rs.flatten.foldl (batchMergeStep fp) acc := by
    intro rs
    induction rs with
    | nil =>
      intro acc
      rfl
    | cons r rs ih =>
      intro acc
      simp only [List.foldl_cons, List.flatten_cons, List.foldl_append]
      exact ih _
  unfold queryIngestersMerge allSampleStreams
  rw [key]

theorem queryIngesterStreamMerge_components (keyOf : Labels → String)
    (results : List QueryStreamResponse) :
    queryIngesterStreamMerge keyOf results =
      ⟨((allChunkSeries results).foldl (chunkMergeStep keyOf) []).map Prod.snd,
        ((allTimeSeries results).foldl (tsMergeStep keyOf) []).map Prod.snd⟩ := by
  have key : ∀ (rs : List QueryStreamResponse)
      (st : List (String × TimeSeriesChunk) × List (String × TimeSeries)),
      rs.foldl
        (fun st response =>
          (response.chunkseries.foldl (chunkMergeStep keyOf) st.1,
            response.timeseries.foldl (tsMergeStep keyOf) st.2)) st =
        (((rs.map (fun r => r.chunkseries)).flatten).foldl
            (chunkMergeStep keyOf) st.1,
          ((rs.map (fun r => r.timeseries)).flatten).foldl
            (tsMergeStep keyOf) st.2) := by
    intro rs
    induction rs with
    | nil =>
      intro st
      rfl
    | cons r rs ih =>
      intro st
      simp only [List.foldl_cons, List.map_cons, List.flatten_cons,
        List.foldl_append]
      exact ih _
  unfold queryIngesterStreamMerge allChunkSeries allTimeSeries
  rw [key]

theorem map_key_of_map_snd {κ α : Type} (g : α → κ) {l : List (κ × α)}
    (h : ∀ p ∈ l, g p.2 = p.1) :
    (l.map Prod.snd).map g = l.map Prod.fst := by
  rw [List.map_map]
  exact List.map_congr_left h

theorem batchCombine_key (fp : Metric → Nat) (o : Option SampleStream)
    (ss : SampleStream) (h : ∀ v, o = some v → fp v.metric = fp ss.metric) :
    fp (batchCombine o ss).metric = fp ss.metric := by
  cases o with
  | none => rfl
  | some v => exact h v rfl

/-- Claim C8: every series identity appears at most once in each merged
output: the batch merge emits at most one stream per fingerprint, and the
streaming merge emits at most one chunk-series entry and at most one
time-series entry per canonical label-set key. -/
theorem merged_series_identity_unique (fp : Metric → Nat)
    (results : List Matrix) (keyOf : Labels → String)
    (sresults : List QueryStreamResponse) :
    ((queryIngestersMerge fp results).map (fun ss => fp ss.metric)).Nodup ∧
      ((queryIngesterStreamMerge keyOf sresults).chunkseries.map
        (fun s => keyOf s.labels)).Nodup ∧
      ((queryIngesterStreamMerge keyOf sresults).timeseries.map
        (fun s => keyOf s.labels)).Nodup := by
  refine ⟨?_, ?_, ?_⟩
  · rw [queryIngestersMerge_eq_flat, batchMergeStep_eq]
    have hkeys := foldl_upsertBy_entry_key (fun ss => fp ss.metric)
      batchCombine (fun ss => fp ss.metric)
      (fun o s h => batchCombine_key fp o s h)
      (allSampleStreams results)
      (show ∀ p ∈ ([] : List (Nat × SampleStream)), _ from by simp)
    rw [map_key_of_map_snd _ hkeys]
    exact foldl_upsertBy_keys_nodup _ _ _ (by simp)
  · rw [queryIngesterStreamMerge_components]
    have hkeys := foldl_upsertBy_entry_key (fun s => keyOf s.labels)
      chunkCombine (fun s => keyOf s.labels)
      (fun o s _ => rfl)
      (allChunkSeries sresults)
      (show ∀ p ∈ ([] : List (String × TimeSeriesChunk)), _ from by simp)
    dsimp only
    rw [chunkMergeStep_eq, map_key_of_map_snd _ hkeys]
    exact foldl_upsertBy_keys_nodup _ _ _ (by simp)
  · rw [queryIngesterStreamMerge_components]
    have hkeys := foldl_upsertBy_entry_key (fun s => keyOf s.labels)
      tsCombine (fun s => keyOf s.labels)
      (fun o s _ => by cases o <;> rfl)
      (allTimeSeries sresults)
      (show ∀ p ∈ ([] : List (String × TimeSeries)), _ from by simp)
    dsimp only
    rw [tsMergeStep_eq, map_key_of_map_snd _ hkeys]
    exact foldl_upsertBy_keys_nodup _ _ _ (by simp)

theorem chunk_fold_chunks :
    ∀ (contribs : List TimeSeriesChunk) (o : Option TimeSeriesChunk)
      (e : TimeSeriesChunk),
      contribs.foldl (fun o s => some (chunkCombine o s)) o = some e →
      e.chunks =
        (match o with
          | none => []
          | some v => v.chunks) ++ (contribs.map (fun s => s.chunks)).flatten := by
  intro contribs
  induction contribs with
  | nil =>
    intro o e h
    cases o with
    | none => cases h
    | some v =>
      injection h with h
      rw [← h]
      simp
  | cons s contribs ih =>
    intro o e h
    rw [List.foldl_cons] at h
    have h2 := ih _ _ h
    rw [h2]
    cases o <;> simp [chunkCombine]

/-- Claim C7: in the streaming aggregator, chunk-series are merged by the
canonical string key of the label set, and for a given key the chunk lists
contributed by the replicas are concatenated verbatim (never deduplicated),
so every output entry's chunk list equals the concatenation of the chunk
lists contributed under its key and its length is the sum of their
lengths. -/
theorem queryIngesterStream_chunks_concatenated (keyOf : Labels → String)
    (results : List QueryStreamResponse) (e : TimeSeriesChunk)
    (he : e ∈ (queryIngesterStreamMerge keyOf results).chunkseries) :
    e.chunks = (((allChunkSeries results).filter
        (fun s => keyOf s.labels = keyOf e.labels)).map
          (fun s => s.chunks)).flatten ∧
      e.chunks.length = (((allChunkSeries results).filter
        (fun s => keyOf s.labels = keyOf e.labels)).map
          (fun s => s.chunks.length)).sum := by
  rw [queryIngesterStreamMerge_components] at he
  dsimp only at he
  rw [chunkMergeStep_eq] at he
  have hnodup : ((((allChunkSeries results).foldl
      (upsertBy (fun series => keyOf series.labels) chunkCombine) [])).map
        Prod.fst).Nodup :=
    foldl_upsertBy_keys_nodup _ _ _ (by simp)
  obtain ⟨k, hk⟩ := (mem_map_snd_iff_lookup hnodup e).mp he
  have hkey : keyOf e.labels = k := by
    have hinv := foldl_upsertBy_entry_key (fun s => keyOf s.labels)
      chunkCombine (fun s => keyOf s.labels)
      (fun o s _ => rfl)
      (allChunkSeries results)
      (show ∀ p ∈ ([] : List (String × TimeSeriesChunk)), _ from by simp)
      (k, e) (mem_of_alistLookup hk)
    exact hinv
  rw [alistLookup_foldl_upsertBy] at hk
  have hchunks := chunk_fold_chunks _ _ _ hk
  have hmain : e.chunks = (((allChunkSeries results).filter
      (fun s => keyOf s.labels = keyOf e.labels)).map
        (fun s => s.chunks)).flatten := by
    rw [hkey]
    simpa using hchunks
  refine ⟨hmain, ?_⟩
  rw [hmain]
  rw [List.length_flatten, List.map_map]
  rfl

/-- Witness for C7: two replicas contribute one chunk each under the same
key; the output entry carries both chunks concatenated. -/
theorem queryIngesterStream_chunks_concatenated_witness :
    ((⟨[("n", "up")], [⟨0, 5, 1, [1]⟩, ⟨6, 9, 1, [2]⟩]⟩ : TimeSeriesChunk) ∈
      (queryIngesterStreamMerge (fun l => String.join (l.map Prod.fst))
        [⟨[⟨[("n", "up")], [⟨0, 5, 1, [1]⟩]⟩], []⟩,
          ⟨[⟨[("n", "up")], [⟨6, 9, 1, [2]⟩]⟩], []⟩]).chunkseries) ∧
      ((⟨[("n", "up")], [⟨0, 5, 1, [1]⟩, ⟨6, 9, 1, [2]⟩]⟩ :
          TimeSeriesChunk).chunks =
        (((allChunkSeries
            [⟨[⟨[("n", "up")], [⟨0, 5, 1, [1]⟩]⟩], []⟩,
              ⟨[⟨[("n", "up")], [⟨6, 9, 1, [2]⟩]⟩], []⟩]).filter
          (fun s => String.join (s.labels.map Prod.fst) =
            String.join ((⟨[("n", "up")],
              [⟨0, 5, 1, [1]⟩, ⟨6, 9, 1, [2]⟩]⟩ :
                TimeSeriesChunk).labels.map Prod.fst))).map
            (fun s => s.chunks)).flatten ∧
        (⟨[("n", "up")], [⟨0, 5, 1, [1]⟩, ⟨6, 9, 1, [2]⟩]⟩ :
            TimeSeriesChunk).chunks.length =
          (((allChunkSeries
              [⟨[⟨[("n", "up")], [⟨0, 5, 1, [1]⟩]⟩], []⟩,
                ⟨[⟨[("n", "up")], [⟨6, 9, 1, [2]⟩]⟩], []⟩]).filter
            (fun s => String.join (s.labels.map Prod.fst) =
              String.join ((⟨[("n", "up")],
                [⟨0, 5, 1, [1]⟩, ⟨6, 9, 1, [2]⟩]⟩ :
                  TimeSeriesChunk).labels.map Prod.fst))).map
              (fun s => s.chunks.length)).sum) :=
  ⟨by decide,
    queryIngesterStream_chunks_concatenated
      (fun l => String.join (l.map Prod.fst))
      [⟨[⟨[("n", "up")], [⟨0, 5, 1, [1]⟩]⟩], []⟩,
        ⟨[⟨[("n", "up")], [⟨6, 9, 1, [2]⟩]⟩], []⟩]
      ⟨[("n", "up")], [⟨0, 5, 1, [1]⟩, ⟨6, 9, 1, [2]⟩]⟩ (by decide)⟩

theorem exists_out_iff_lookup {κ α : Type} [DecidableEq κ]
    {l : List (κ × α)} (hnodup : (l.map Prod.fst).Nodup) (g : α → κ)
    (hinv : ∀ p ∈ l, g p.2 = p.1) (k : κ) (P : α → Prop) :
    (∃ e ∈ l.map Prod.snd, g e = k ∧ P e) ↔
      ∃ v, alistLookup k l = some v ∧ P v := by
  constructor
  · rintro ⟨e, he, hge, hP⟩
    obtain ⟨k', hk'⟩ := (mem_map_snd_iff_lookup hnodup e).mp he
    have hgk : g e = k' := hinv _ (mem_of_alistLookup hk')
    have hkk : k' = k := by rw [← hgk, hge]
    exact ⟨e, hkk ▸ hk', hP⟩
  · rintro ⟨v, hv, hP⟩
    exact ⟨v, (mem_map_snd_iff_lookup hnodup v).mpr ⟨k, hv⟩,
      hinv _ (mem_of_alistLookup hv), hP⟩

theorem exists_out_key_iff_lookup {κ α : Type} [DecidableEq κ]
    {l : List (κ × α)} (hnodup : (l.map Prod.fst).Nodup) (g : α → κ)
    (hinv : ∀ p ∈ l, g p.2 = p.1) (k : κ) :
    (∃ e ∈ l.map Prod.snd, g e = k) ↔ ∃ v, alistLookup k l = some v := by
  constructor
  · rintro ⟨e, he, hge⟩
    obtain ⟨k', hk'⟩ := (mem_map_snd_iff_lookup hnodup e).mp he
    have hgk : g e = k' := hinv _ (mem_of_alistLookup hk')
    have hkk : k' = k := by rw [← hgk, hge]
    exact ⟨e, hkk ▸ hk'⟩
  · rintro ⟨v, hv⟩
    exact ⟨v, (mem_map_snd_iff_lookup hnodup v).mpr ⟨k, hv⟩,
      hinv _ (mem_of_alistLookup hv)⟩

theorem foldl_out_elem_char {κ α β γ : Type} [DecidableEq κ]
    (key : β → κ) (f : Option α → β → α) (g : α → κ)
    (hg : ∀ (o : Option α) (s : β), (∀ v, o = some v → g v = key s) →
      g (f o s) = key s)
    (E : α → List γ) (Ein : β → List γ)
    (hf : ∀ (o : Option α) (s : β) (x : γ),
      x ∈ E (f o s) ↔ (∃ v, o = some v ∧ x ∈ E v) ∨ x ∈ Ein s)
    (L : List β) (k : κ) (x : γ) :
    (∃ e ∈ (L.foldl (upsertBy key f) []).map Prod.snd, g e = k ∧ x ∈ E e) ↔
      ∃ s ∈ L, key s = k ∧ x ∈ Ein s := by
  have hnodup := foldl_upsertBy_keys_nodup key f L
    (show (([] : List (κ × α)).map Prod.fst).Nodup from by simp)
  have hinv := foldl_upsertBy_entry_key key f g hg L
    (show ∀ p ∈ ([] : List (κ × α)), g p.2 = p.1 from by simp)
  refine (exists_out_iff_lookup hnodup g hinv k (fun e => x ∈ E e)).trans ?_
  refine (lookup_foldl_mem_elem_iff key f E Ein hf k L [] x).trans ?_
  constructor
  · rintro (⟨v, hv, _⟩ | h)
    · exact absurd hv (by simp [alistLookup])
    · exact h
  · intro h
    exact Or.inr h

theorem foldl_out_key_char {κ α β : Type} [DecidableEq κ]
    (key : β → κ) (f : Option α → β → α) (g : α → κ)
    (hg : ∀ (o : Option α) (s : β), (∀ v, o = some v → g v = key s) →
      g (f o s) = key s)
    (L : List β) (k : κ) :
    (∃ e ∈ (L.foldl (upsertBy key f) []).map Prod.snd, g e = k) ↔
      ∃ s ∈ L, key s = k := by
  have hnodup := foldl_upsertBy_keys_nodup key f L
    (show (([] : List (κ × α)).map Prod.fst).Nodup from by simp)
  have hinv := foldl_upsertBy_entry_key key f g hg L
    (show ∀ p ∈ ([] : List (κ × α)), g p.2 = p.1 from by simp)
  refine (exists_out_key_iff_lookup hnodup g hinv k).trans ?_
  refine (lookup_foldl_isSome_iff key f k L []).trans ?_
  constructor
  · rintro (⟨v, hv⟩ | h)
    · exact absurd hv (by simp [alistLookup])
    · exact h
  · intro h
    exact Or.inr h

theorem batchCombine_ts_mem (o : Option SampleStream) (s : SampleStream)
    (t : Int) :
    t ∈ timestampsOf (batchCombine o s).values ↔
      (∃ v, o = some v ∧ t ∈ timestampsOf v.values) ∨
        t ∈ timestampsOf s.values := by
  cases o with
  | none =>
    simp only [batchCombine, MergeSampleSets]
    rw [mem_timestampsOf_mergeSamples]
    simp [timestampsOf]
  | some v =>
    simp only [batchCombine, MergeSampleSets]
    rw [mem_timestampsOf_mergeSamples]
    simp

theorem chunkCombine_chunk_mem (o : Option TimeSeriesChunk)
    (s : TimeSeriesChunk) (c : Chunk) :
    c ∈ (chunkCombine o s).chunks ↔
      (∃ v, o = some v ∧ c ∈ v.chunks) ∨ c ∈ s.chunks := by
  cases o <;> simp [chunkCombine]

theorem tsCombine_ts_mem (o : Option TimeSeries) (s : TimeSeries) (t : Int) :
    t ∈ timestampsOf (tsCombine o s).samples ↔
      (∃ v, o = some v ∧ t ∈ timestampsOf v.samples) ∨
        t ∈ timestampsOf s.samples := by
  cases o with
  | none => simp [tsCombine]
  | some v =>
    by_cases hv : v.samples = []
    · simp only [tsCombine, if_pos hv]
      simp [hv, timestampsOf]
    · simp only [tsCombine, if_neg hv]
      rw [mem_timestampsOf_mergeSamples]
      simp

theorem exists_mem_flatten_map_perm {ρ χ : Type} {l l' : List ρ}
    (h : l.Perm l') (proj : ρ → List χ) (P : χ → Prop) :
    (∃ x ∈ (l.map proj).flatten, P x) ↔ ∃ x ∈ (l'.map proj).flatten, P x := by
  simp only [List.mem_flatten, List.mem_map]
  constructor
  · rintro ⟨x, ⟨lx, ⟨r, hr, rfl⟩, hx⟩, hP⟩
    exact ⟨x, ⟨proj r, ⟨r, h.mem_iff.mp hr, rfl⟩, hx⟩, hP⟩
  · rintro ⟨x, ⟨lx, ⟨r, hr, rfl⟩, hx⟩, hP⟩
    exact ⟨x, ⟨proj r, ⟨r, h.mem_iff.mpr hr, rfl⟩, hx⟩, hP⟩

theorem exists_mem_flatten_perm {χ : Type} {l l' : List (List χ)}
    (h : l.Perm l') (P : χ → Prop) :
    (∃ x ∈ l.flatten, P x) ↔ ∃ x ∈ l'.flatten, P x := by
  simp only [List.mem_flatten]
  constructor
  · rintro ⟨x, ⟨r, hr, hx⟩, hP⟩
    exact ⟨x, ⟨r, h.mem_iff.mp hr, hx⟩, hP⟩
  · rintro ⟨x, ⟨r, hr, hx⟩, hP⟩
    exact ⟨x, ⟨r, h.mem_iff.mpr hr, hx⟩, hP⟩

/-- Counterexample for C6: permuting the two replica results changes the
batch-merged output — on a divergent timestamp tie the first-presented
replica's value wins, so the merged result is not independent of the order
in which replica results are presented. -/
theorem queryMerge_order_dependence_counterexample :
    queryIngestersMerge (fun _ => 0)
        [[⟨[("n", "up")], [⟨100, 1⟩]⟩], [⟨[("n", "up")], [⟨100, 2⟩]⟩]] =
      [⟨[("n", "up")], [⟨100, 1⟩]⟩] ∧
    queryIngestersMerge (fun _ => 0)
        [[⟨[("n", "up")], [⟨100, 2⟩]⟩], [⟨[("n", "up")], [⟨100, 1⟩]⟩]] =
      [⟨[("n", "up")], [⟨100, 2⟩]⟩] ∧
    ([[(⟨[("n", "up")], [⟨100, 1⟩]⟩ : SampleStream)],
        [⟨[("n", "up")], [⟨100, 2⟩]⟩]].Perm
      [[⟨[("n", "up")], [⟨100, 2⟩]⟩], [⟨[("n", "up")], [⟨100, 1⟩]⟩]]) ∧
    queryIngestersMerge (fun _ => 0)
        [[⟨[("n", "up")], [⟨100, 1⟩]⟩], [⟨[("n", "up")], [⟨100, 2⟩]⟩]] ≠
      queryIngestersMerge (fun _ => 0)
        [[⟨[("n", "up")], [⟨100, 2⟩]⟩], [⟨[("n", "up")], [⟨100, 1⟩]⟩]] := by
  have h1 : queryIngestersMerge (fun _ => 0)
      [[⟨[("n", "up")], [⟨100, 1⟩]⟩], [⟨[("n", "up")], [⟨100, 2⟩]⟩]] =
        [⟨[("n", "up")], [⟨100, 1⟩]⟩] := by
    simp [queryIngestersMerge, batchMergeStep, upsertBy, batchCombine,
      alistLookup, alistUpsert, MergeSampleSets, mergeSamples_eq,
      mergeLoop_cons_cons, mergeLoop_nil_left, mergeLoop_nil_right]
  have h2 : queryIngestersMerge (fun _ => 0)
      [[⟨[("n", "up")], [⟨100, 2⟩]⟩], [⟨[("n", "up")], [⟨100, 1⟩]⟩]] =
        [⟨[("n", "up")], [⟨100, 2⟩]⟩] := by
    simp [queryIngestersMerge, batchMergeStep, upsertBy, batchCombine,
      alistLookup, alistUpsert, MergeSampleSets, mergeSamples_eq,
      mergeLoop_cons_cons, mergeLoop_nil_left, mergeLoop_nil_right]
  refine ⟨h1, h2, by decide, ?_⟩
  rw [h1, h2]
  decide

/-- Claim C6 (amended): permuting the presented replica results preserves,
for both aggregators, the set of series keys in the output and the set of
elements (sample timestamps, chunks) grouped under each key; but the order
of output entries, the concatenation order of chunk lists, and the value
kept at a divergent timestamp tie may depend on the presentation order (see
the counterexample). -/
theorem queryMerge_order_invariant_sets (fp : Metric → Nat)
    (keyOf : Labels → String) (results results' : List Matrix)
    (sresults sresults' : List QueryStreamResponse)
    (hperm : results.Perm results') (hsperm : sresults.Perm sresults') :
    (∀ k : Nat,
      (∃ e ∈ queryIngestersMerge fp results, fp e.metric = k) ↔
        ∃ e ∈ queryIngestersMerge fp results', fp e.metric = k) ∧
    (∀ (k : Nat) (t : Int),
      (∃ e ∈ queryIngestersMerge fp results, fp e.metric = k ∧
          t ∈ timestampsOf e.values) ↔
        ∃ e ∈ queryIngestersMerge fp results', fp e.metric = k ∧
          t ∈ timestampsOf e.values) ∧
    (∀ k : String,
      (∃ e ∈ (queryIngesterStreamMerge keyOf sresults).chunkseries,
          keyOf e.labels = k) ↔
        ∃ e ∈ (queryIngesterStreamMerge keyOf sresults').chunkseries,
          keyOf e.labels = k) ∧
    (∀ (k : String) (c : Chunk),
      (∃ e ∈ (queryIngesterStreamMerge keyOf sresults).chunkseries,
          keyOf e.labels = k ∧ c ∈ e.chunks) ↔
        ∃ e ∈ (queryIngesterStreamMerge keyOf sresults').chunkseries,
          keyOf e.labels = k ∧ c ∈ e.chunks) ∧
    (∀ k : String,
      (∃ e ∈ (queryIngesterStreamMerge keyOf sresults).timeseries,
          keyOf e.labels = k) ↔
        ∃ e ∈ (queryIngesterStreamMerge keyOf sresults').timeseries,
          keyOf e.labels = k) ∧
    (∀ (k : String) (t : Int),
      (∃ e ∈ (queryIngesterStreamMerge keyOf sresults).timeseries,
          keyOf e.labels = k ∧ t ∈ timestampsOf e.samples) ↔
        ∃ e ∈ (queryIngesterStreamMerge keyOf sresults').timeseries,
          keyOf e.labels = k ∧ t ∈ timestampsOf e.samples) := by
  refine ⟨?_, ?_, ?_, ?_, ?_, ?_⟩
  · intro k
    rw [queryIngestersMerge_eq_flat fp results,
      queryIngestersMerge_eq_flat fp results', batchMergeStep_eq]
    exact ((foldl_out_key_char _ batchCombine (fun ss => fp ss.metric)
        (fun o s h => batchCombine_key fp o s h)
        (allSampleStreams results) k).trans
      ((exists_mem_flatten_perm hperm (fun ss => fp ss.metric = k)).trans
        (foldl_out_key_char _ batchCombine (fun ss => fp ss.metric)
          (fun o s h => batchCombine_key fp o s h)
          (allSampleStreams results') k).symm))
  · intro k t
    rw [queryIngestersMerge_eq_flat fp results,
      queryIngestersMerge_eq_flat fp results', batchMergeStep_eq]
    exact ((foldl_out_elem_char _ batchCombine (fun ss => fp ss.metric)
        (fun o s h => batchCombine_key fp o s h)
        (fun ss => timestampsOf ss.values) (fun ss => timestampsOf ss.values)
        batchCombine_ts_mem (allSampleStreams results) k t).trans
      ((exists_mem_flatten_perm hperm
          (fun ss => fp ss.metric = k ∧ t ∈ timestampsOf ss.values)).trans
        (foldl_out_elem_char _ batchCombine (fun ss => fp ss.metric)
          (fun o s h => batchCombine_key fp o s h)
          (fun ss => timestampsOf ss.values) (fun ss => timestampsOf ss.values)
          batchCombine_ts_mem (allSampleStreams results') k t).symm))
  · intro k
    rw [queryIngesterStreamMerge_components keyOf sresults,
      queryIngesterStreamMerge_components keyOf sresults', chunkMergeStep_eq]
    dsimp only
    exact ((foldl_out_key_char _ chunkCombine (fun s => keyOf s.labels)
        (fun o s _ => rfl) (allChunkSeries sresults) k).trans
      ((exists_mem_flatten_map_perm hsperm (fun r => r.chunkseries)
          (fun s => keyOf s.labels = k)).trans
        (foldl_out_key_char _ chunkCombine (fun s => keyOf s.labels)
          (fun o s _ => rfl) (allChunkSeries sresults') k).symm))
  · intro k c
    rw [queryIngesterStreamMerge_components keyOf sresults,
      queryIngesterStreamMerge_components keyOf sresults', chunkMergeStep_eq]
    dsimp only
    exact ((foldl_out_elem_char _ chunkCombine (fun s => keyOf s.labels)
        (fun o s _ => rfl) (fun s => s.chunks) (fun s => s.chunks)
        chunkCombine_chunk_mem (allChunkSeries sresults) k c).trans
      ((exists_mem_flatten_map_perm hsperm (fun r => r.chunkseries)
          (fun s => keyOf s.labels = k ∧ c ∈ s.chunks)).trans
        (foldl_out_elem_char _ chunkCombine (fun s => keyOf s.labels)
          (fun o s _ => rfl) (fun s => s.chunks) (fun s => s.chunks)
          chunkCombine_chunk_mem (allChunkSeries sresults') k c).symm))
  · intro k
    rw [queryIngesterStreamMerge_components keyOf sresults,
      queryIngesterStreamMerge_components keyOf sresults', tsMergeStep_eq]
    dsimp only
    exact ((foldl_out_key_char _ tsCombine (fun s => keyOf s.labels)
        (fun o s _ => by cases o <;> rfl) (allTimeSeries sresults) k).trans
      ((exists_mem_flatten_map_perm hsperm (fun r => r.timeseries)
          (fun s => keyOf s.labels = k)).trans
        (foldl_out_key_char _ tsCombine (fun s => keyOf s.labels)
          (fun o s _ => by cases o <;> rfl) (allTimeSeries sresults') k).symm))
  · intro k t
    rw [queryIngesterStreamMerge_components keyOf sresults,
      queryIngesterStreamMerge_components keyOf sresults', tsMergeStep_eq]
    dsimp only
    exact ((foldl_out_elem_char _ tsCombine (fun s => keyOf s.labels)
        (fun o s _ => by cases o <;> rfl)
        (fun s => timestampsOf s.samples) (fun s => timestampsOf s.samples)
        tsCombine_ts_mem (allTimeSeries sresults) k t).trans
      ((exists_mem_flatten_map_perm hsperm (fun r => r.timeseries)
          (fun s => keyOf s.labels = k ∧ t ∈ timestampsOf s.samples)).trans
        (foldl_out_elem_char _ tsCombine (fun s => keyOf s.labels)
          (fun o s _ => by cases o <;> rfl)
          (fun s => timestampsOf s.samples) (fun s => timestampsOf s.samples)
          tsCombine_ts_mem (allTimeSeries sresults') k t).symm))

/-- Witness for the amended C6: the permuted pair from the counterexample
still yields the same per-key timestamp sets in the batch merge. -/
theorem queryMerge_order_invariant_sets_witness :
    ([[(⟨[("n", "up")], [⟨100, 1⟩]⟩ : SampleStream)],
        [⟨[("n", "up")], [⟨100, 2⟩]⟩]].Perm
      [[⟨[("n", "up")], [⟨100, 2⟩]⟩], [⟨[("n", "up")], [⟨100, 1⟩]⟩]]) ∧
    ∀ (k : Nat) (t : Int),
      (∃ e ∈ queryIngestersMerge (fun _ => 0)
          [[⟨[("n", "up")], [⟨100, 1⟩]⟩], [⟨[("n", "up")], [⟨100, 2⟩]⟩]],
        (0 : Nat) = k ∧ t ∈ timestampsOf e.values) ↔
      ∃ e ∈ queryIngestersMerge (fun _ => 0)
          [[⟨[("n", "up")], [⟨100, 2⟩]⟩], [⟨[("n", "up")], [⟨100, 1⟩]⟩]],
        (0 : Nat) = k ∧ t ∈ timestampsOf e.values :=
  ⟨by decide,
    fun k t =>
      (queryMerge_order_invariant_sets (fun _ => 0) (fun _ => "")
        [[⟨[("n", "up")], [⟨100, 1⟩]⟩], [⟨[("n", "up")], [⟨100, 2⟩]⟩]]
        [[⟨[("n", "up")], [⟨100, 2⟩]⟩], [⟨[("n", "up")], [⟨100, 1⟩]⟩]]
        [] [] (by decide) (List.Perm.refl [])).2.1 k t⟩

end Distributor
